import Mathlib

/-!
Verification development for the fireway Firestore migration engine
(`src/index.js`).  The engine is shallowly embedded: filename parsing,
semantic-version coercion and comparison, the write-interception layer
(`proxyWritableMethods` / `mitm` / the `WriteBatch._commit` proxy), and the
`migrate` pipeline that reads the history collection, filters and sorts the
candidate files, runs each migration and appends one history record per
attempt.

Modelling conventions:
* JS strings are Lean `String`s; filename scanning works on `List Char` with
  structural recursion so that everything evaluates by `rfl` / `decide`.
* The migration entry point is arbitrary user code; it is modelled by an
  oracle `MigrationBehavior` giving, per filename, the mutating calls the
  migration issues on the claimed client and whether its execution window
  succeeds (a synchronous throw, a failure result or a captured unhandled
  asynchronous error all surface as `success = false` through `trackAsync`).
* The document database is external; the only persisted state the engine
  reads and writes is the `fireway` history collection, modelled as a list
  of records in append order.  User-document contents are not modelled;
  a document is represented by the string `JSON.stringify` would print.
* I/O-only record fields (checksum, installed_by, timestamps,
  execution_time) are omitted: no claim mentions them and they do not feed
  back into control flow.
-/

/-- A coerced semantic version.  `semver.coerce` always produces a plain
`major.minor.patch` version (pre-release and build are dropped), so the
canonical version the engine works with is a triple of numbers. -/
structure Semver where
  major : Nat
  minor : Nat
  patch : Nat
deriving DecidableEq, Repr

/-- Canonical rendering of a coerced version, as in `coerced.version`. -/
def versionString (v : Semver) : String :=
  toString v.major ++ "." ++ toString v.minor ++ "." ++ toString v.patch

/-- The order semver.compare restricted to canonical (coerced) versions:
lexicographic comparison of the numeric components. -/
def semverCompare (a b : Semver) : Ordering :=
  if a.major < b.major then .lt else if b.major < a.major then .gt
  else if a.minor < b.minor then .lt else if b.minor < a.minor then .gt
  else if a.patch < b.patch then .lt else if b.patch < a.patch then .gt
  else .eq

/-- The test semver.gt on canonical versions, as used to filter candidates against
the latest recorded version. -/
def semverGtB (a b : Semver) : Bool :=
  semverCompare a b == Ordering.gt

/-- Propositional strict order matching `semverCompare _ _ = .lt`. -/
def semverLt (a b : Semver) : Prop :=
  a.major < b.major ∨ (a.major = b.major ∧
    (a.minor < b.minor ∨ (a.minor = b.minor ∧ a.patch < b.patch)))

/-- Propositional order matching the sort comparator (`¬ gt`). -/
def semverLe (a b : Semver) : Prop :=
  a.major < b.major ∨ (a.major = b.major ∧
    (a.minor < b.minor ∨ (a.minor = b.minor ∧ a.patch ≤ b.patch)))

instance : DecidableRel semverLt := fun a b => by
  unfold semverLt; infer_instance

instance : DecidableRel semverLe := fun a b => by
  unfold semverLe; infer_instance

/-- Numeric value of a digit run, most significant first. -/
def digitsToNat (ds : List Char) : Nat :=
  ds.foldl (fun n c => n * 10 + (c.toNat - 48)) 0

/-- Modelled from the spec: one optional `.digits` component consumed by the
lenient coercion (the `semver` package is an external collaborator, §4.1:
lenient coercion tolerates missing components). -/
def coerceComponent (cs : List Char) : Option (Nat × List Char) :=
  match cs with
  | '.' :: rest =>
    let ds := rest.takeWhile Char.isDigit
    if ds.isEmpty then none else some (digitsToNat ds, rest.drop ds.length)
  | _ => none

/-- Modelled from the spec: `semver.coerce` of the external `semver`
package (§4.1 "lenient coercion: tolerates missing components, extracts
leading numeric tokens").  The first run of digits becomes the major
component; `.digits` components that immediately follow become minor and
patch; anything else is ignored; a token with no digits is not coercible.
(The 16-digit cap of the real regular expression is not modelled; no claim
involves tokens that long.) -/
def coerceChars : List Char → Option Semver
  | [] => none
  | c :: rest =>
    if c.isDigit then
      let ds := (c :: rest).takeWhile Char.isDigit
      let after := (c :: rest).drop ds.length
      let major := digitsToNat ds
      match coerceComponent after with
      | none => some ⟨major, 0, 0⟩
      | some (minor, after2) =>
        match coerceComponent after2 with
        | none => some ⟨major, minor, 0⟩
        | some (patch, _) => some ⟨major, minor, patch⟩
    else
      coerceChars rest

/-- The coercion semver.coerce applied to a string token. -/
def coerceStr (s : String) : Option Semver :=
  coerceChars s.data

/-- The split of a filename on the two-character separator: greedy
left-to-right, keeping empty segments, as filename.split does. -/
def splitSep : List Char → List (List Char)
  | [] => [[]]
  | '_' :: '_' :: rest => [] :: splitSep rest
  | c :: rest =>
    match splitSep rest with
    | [] => [[c]]
    | p :: ps => (c :: p) :: ps

/-- The composition path.basename over path.extname on the description
token: drop the
extension, where the extension starts at the last dot unless that dot is
the leading character (Node treats such names as extensionless). -/
def stripExt (cs : List Char) : List Char :=
  let tail := cs.reverse.takeWhile (fun c => c != '.')
  if tail.length + 1 < cs.length then cs.take (cs.length - tail.length - 1)
  else cs

/-- Outcome of looking at one directory entry in the scan loop of
`migrate` (src/index.js lines 248-282), before duplicate detection. -/
inductive NameClass where
  | skip
  | bad
  | cand (version : Semver) (description : String)
deriving DecidableEq, Repr

/-- Classify one filename exactly as the scan loop does: dot-files are
skipped; the version token is the part before the first `__` and the
description token the part between the first and second `__`; a
non-coercible version token means the file is skipped (with at most a
warning); a coercible version with a missing or empty description token is
a hard error; otherwise the candidate carries the coerced version and the
extension-stripped description token. -/
def classify (filename : String) : NameClass :=
  if filename.data.head? = some '.' then .skip
  else
    let parts := splitSep filename.data
    match coerceChars (parts.headD []) with
    | none => .skip
    | some version =>
      let d := (parts.drop 1).headD []
      if d.isEmpty then .bad
      else .cand version (String.mk (stripExt d))

/-- The coerced version a filename contributes to duplicate detection,
when it is a candidate. -/
def candVersion (filename : String) : Option Semver :=
  match classify filename with
  | .cand v _ => some v
  | _ => none

/-- One discovered migration file (§3 MigrationFile; the absolute path is
`dir`-joined `filename` and is only used for I/O, so it is not carried). -/
structure MigrationFile where
  filename : String
  version : Semver
  description : String
deriving DecidableEq, Repr

/-- The errors `migrate` can throw in the modelled fragment. -/
inductive FirewayError where
  /-- The malformed-filename error: this filename does not match the
  required format. -/
  | badFilename (filename : String)
  /-- The duplicate error: both files have the same version. -/
  | duplicateVersion (filename existing : String)
  /-- The hard-lock error: the recorded migration failed, restore backups
  and roll back database and code. -/
  | failedMigration (version : Semver) (script : String)
  /-- The stopped-at-first-failure error. -/
  | stoppedAtFirstFailure
deriving DecidableEq, Repr

/-- The lookup versionToFile.get: the filename already registered for a
version. -/
def lookupVersion (v : Semver) : List (Semver × String) → Option String
  | [] => none
  | (v', n) :: rest => if v' = v then some n else lookupVersion v rest

/-- The scan loop of `migrate`: map every directory entry through
`classify`, abort on the first malformed candidate name, abort on the
first duplicate coerced version (naming the clashing pair), and collect
the surviving candidates in directory order. -/
def parseFiles (versionToFile : List (Semver × String)) :
    List String → Except FirewayError (List MigrationFile)
  | [] => .ok []
  | filename :: rest =>
    match classify filename with
    | .skip => parseFiles versionToFile rest
    | .bad => .error (.badFilename filename)
    | .cand version description =>
      match lookupVersion version versionToFile with
      | some existing => .error (.duplicateVersion filename existing)
      | none =>
        match parseFiles ((version, filename) :: versionToFile) rest with
        | .error e => .error e
        | .ok files =>
          .ok ({filename := filename, version := version,
                description := description} :: files)

/-- One record of the `fireway` history collection (§3 HistoryRecord;
checksum / installed_by / timestamps are I/O-only and omitted). -/
structure HistoryRecord where
  installed_rank : Int
  version : Semver
  description : String
  script : String
  success : Bool
deriving DecidableEq, Repr

/-- The latest migration: order the history collection by installed_rank
descending and take the first record, i.e. the record with the greatest
installed_rank, or none when the history collection is empty. -/
def getLatest (history : List HistoryRecord) : Option HistoryRecord :=
  history.foldl
    (fun acc r =>
      match acc with
      | none => some r
      | some m => if m.installed_rank < r.installed_rank then some r else some m)
    none

/-- Per-invocation counters plus the frozen flag the engine sets while it
uploads its own history record (`stats.frozen`). -/
structure Stats where
  scannedFiles : Nat
  executedFiles : Nat
  created : Nat
  set : Nat
  updated : Nat
  deleted : Nat
  added : Nat
  frozen : Bool
deriving DecidableEq, Repr

/-- The zero-initialised stats object built at the top of `migrate`. -/
def initialStats : Stats :=
  {scannedFiles := 0, executedFiles := 0, created := 0, set := 0,
   updated := 0, deleted := 0, added := 0, frozen := false}

/-- One mutating operation going through the proxied `WriteBatch` surface.
A document is represented by the string `JSON.stringify` renders it to;
ref paths are strings. -/
inductive WriteOp where
  | create (doc : String)
  | set (merge : Bool) (refPath : String) (doc : String)
  | update (refPath : String) (doc : String)
  | delete (refPath : String)
deriving DecidableEq, Repr

/-- The counter bump the `mitm` handler for each operation performs. -/
def opStats (op : WriteOp) (s : Stats) : Stats :=
  match op with
  | .create _ => {s with created := s.created + 1}
  | .set _ _ _ => {s with set := s.set + 1}
  | .update _ _ => {s with updated := s.updated + 1}
  | .delete _ => {s with deleted := s.deleted + 1}

/-- The log line the `mitm` handler for each operation emits (console.log
joins its arguments with spaces). -/
def opLogLine : WriteOp → String
  | .create doc => "Creating " ++ doc
  | .set merge refPath doc =>
    (if merge then "Merging " else "Setting ") ++ refPath ++ " " ++ doc
  | .update refPath doc => "Updating " ++ refPath ++ " " ++ doc
  | .delete refPath => "Deleting " ++ refPath

/-- Run one action from `_fireway_queue`: the handler receives a throwaway
object instead of the run stats when `stats.frozen` is set (so the counter
bump is lost), and always receives the real `log`. -/
def runQueuedAction (s : Stats) (log : List String) (op : WriteOp) :
    Stats × List String :=
  ((if s.frozen then s else opStats op s), log ++ [opLogLine op])

/-- The `WriteBatch.prototype._commit` proxy: first empty the queue of
deferred log/stat actions, then, when the owning run is a dry run, skip
the underlying commit and return an empty result.  The third component
records whether the underlying network commit was performed. -/
def wbCommit (dryrun : Bool) (queue : List WriteOp) (s : Stats)
    (log : List String) : Stats × List String × Bool :=
  let fl := queue.foldl (fun acc op => runQueuedAction acc.1 acc.2 op) (s, log)
  (fl.1, fl.2, !dryrun)

/-- The wrapper of CollectionReference.prototype.add on a claimed
instance: the handler
runs immediately (the receiver is not a `WriteBatch`), marking the
document with the skip symbol so that the internal create-with-generated-id
queues nothing on its `WriteBatch`; the internal batch commit then flushes
an empty queue and applies the dry-run suppression. -/
def addCall (dryrun : Bool) (doc : String) (s : Stats) (log : List String) :
    Stats × List String × Bool :=
  ((if s.frozen then s else {s with added := s.added + 1}),
   log ++ ["Adding " ++ doc], !dryrun)

/-- A mutating call a migration script issues on the claimed client.
Single-document calls internally create a one-operation `WriteBatch` and
commit it; batched calls queue several operations and commit once; a batch
that is never committed never flushes its queue. -/
inductive UserCall where
  | direct (op : WriteOp)
  | batched (ops : List WriteOp)
  | queuedOnly (ops : List WriteOp)
  | add (doc : String)
deriving DecidableEq, Repr

/-- Effect of one user call on the run stats and log.  The performed-flag
of the underlying commit only matters for the history write of the engine itself,
so it is dropped here (user document state is outside the model). -/
def applyUserCall (dryrun : Bool) (c : UserCall) (s : Stats)
    (log : List String) : Stats × List String :=
  match c with
  | .direct op => ((wbCommit dryrun [op] s log).1, (wbCommit dryrun [op] s log).2.1)
  | .batched ops => ((wbCommit dryrun ops s log).1, (wbCommit dryrun ops s log).2.1)
  | .queuedOnly _ => (s, log)
  | .add doc => ((addCall dryrun doc s log).1, (addCall dryrun doc s log).2.1)

/-- Effect of the sequence of mutating calls a migration issues. -/
def applyUserCalls (dryrun : Bool) (cs : List UserCall) (s : Stats)
    (log : List String) : Stats × List String :=
  match cs with
  | [] => (s, log)
  | c :: rest =>
    applyUserCalls dryrun rest (applyUserCall dryrun c s log).1
      (applyUserCall dryrun c s log).2

/-- What one migration file does when its entry point runs: the mutating
calls it issues on the claimed client, and whether its execution window
succeeds (`trackAsync` folds synchronous throws, failure results and
captured unhandled asynchronous errors into a single boolean). -/
structure MigrationBehavior where
  calls : List UserCall
  success : Bool

/-- The id `${installed_rank}-${file.version}-${file.description}` of the
history document, under the `fireway` collection. -/
def recordPath (rank : Int) (f : MigrationFile) : String :=
  "fireway/" ++ toString rank ++ "-" ++ versionString f.version ++ "-" ++
    f.description

/-- The history record `migrate` uploads for one attempted migration. -/
def mkRecord (f : MigrationFile) (rank : Int) (success : Bool) :
    HistoryRecord :=
  {installed_rank := rank, version := f.version,
   description := f.description, script := f.filename, success := success}

/-- Stand-in for `JSON.stringify` of the uploaded history document (only
ever used inside a log line; braces elided). -/
def renderRecord (r : HistoryRecord) : String :=
  "installed_rank: " ++ toString r.installed_rank ++ ", version: " ++
    versionString r.version ++ ", description: " ++ r.description ++
    ", script: " ++ r.script ++ ", success: " ++ toString r.success

/-- Mutable state threaded through the execution loop: the run stats, the
persisted history collection, the log lines emitted through the
interceptor, and the trace of files whose execution was attempted. -/
structure RunState where
  stats : Stats
  history : List HistoryRecord
  logCalls : List String
  executed : List MigrationFile
deriving Repr

/-- One iteration of the execution loop of `migrate` (src/index.js lines
362-415) on one file: bump `executedFiles`, run the mutating calls of the entry
point through the interceptor, freeze the stats, upload the history record
through the proxied batch commit (so a dry run suppresses the
persistence), and unfreeze the stats. -/
def stepState (behavior : String → MigrationBehavior) (dryrun : Bool)
    (file : MigrationFile) (installed_rank : Int) (st : RunState) :
    RunState :=
  let stats0 := {st.stats with executedFiles := st.stats.executedFiles + 1}
  let ul := applyUserCalls dryrun (behavior file.filename).calls stats0
    st.logCalls
  let s1 : Stats := {ul.1 with frozen := true}
  let rank := installed_rank + 1
  let record := mkRecord file rank (behavior file.filename).success
  let cm := wbCommit dryrun
    [WriteOp.set false (recordPath rank file) (renderRecord record)] s1 ul.2
  {stats := {cm.1 with frozen := false},
   history := if cm.2.2 then st.history ++ [record] else st.history,
   logCalls := cm.2.1,
   executed := st.executed ++ [file]}

/-- The execution loop: run each pending file in order through
`stepState`, and stop with "Stopped at first failure" as soon as the execution window of a
migration fails (its failure record has already been
uploaded by `stepState` at that point). -/
def runFiles (behavior : String → MigrationBehavior) (dryrun : Bool) :
    List MigrationFile → Int → RunState → RunState × Option FirewayError
  | [], _, st => (st, none)
  | file :: rest, installed_rank, st =>
    if (behavior file.filename).success then
      runFiles behavior dryrun rest (installed_rank + 1)
        (stepState behavior dryrun file installed_rank st)
    else (stepState behavior dryrun file installed_rank st,
      some .stoppedAtFirstFailure)

/-- Comparator order the sort uses: `semver.compare` not `.gt`. -/
def fileLe (f g : MigrationFile) : Prop := semverLe f.version g.version

/-- Strict version order on files. -/
def fileLt (f g : MigrationFile) : Prop := semverLt f.version g.version

instance : DecidableRel fileLe := fun f g => by
  unfold fileLe; infer_instance

instance : DecidableRel fileLt := fun f g => by
  unfold fileLt; infer_instance

instance : IsTotal MigrationFile fileLe :=
  ⟨fun f g => by simp only [fileLe, semverLe]; omega⟩

instance : IsTrans MigrationFile fileLe :=
  ⟨fun a b c hab hbc => by
    simp only [fileLe, semverLe] at hab hbc ⊢
    omega⟩

/-- The sort of the candidate files by the semver.compare comparator.  The
sort algorithm is irrelevant because versions are pairwise distinct after
duplicate detection; insertion sort realises the comparator order. -/
def sortFiles (files : List MigrationFile) : List MigrationFile :=
  List.insertionSort fileLe files

/-- The filter keeping files whose version is semver.gt the latest
recorded version when a latest record exists, then the sort; no filtering
when history is empty. -/
def pendingFiles (files : List MigrationFile) (latest : Option HistoryRecord) :
    List MigrationFile :=
  match latest with
  | some l => sortFiles (files.filter (fun f => semverGtB f.version l.version))
  | none => sortFiles files

/-- The seed rank: latest.installed_rank when a latest record exists,
`-1` otherwise (so that the first appended record gets rank 0). -/
def startRank : Option HistoryRecord → Int
  | some l => l.installed_rank
  | none => -1

/-- Everything `migrate` leaves behind: the thrown error or the returned
stats, the persisted history collection, the attempted files in order, and
the interceptor log lines. -/
structure MigrateResult where
  outcome : Except FirewayError Stats
  history : List HistoryRecord
  executed : List MigrationFile
  logCalls : List String
deriving Repr

/-- Tail of `migrate` once the candidate files and the starting
installed_rank are known. -/
def runMigrations (behavior : String → MigrationBehavior) (dryrun : Bool)
    (files : List MigrationFile) (rank : Int) (history : List HistoryRecord)
    (stats : Stats) : MigrateResult :=
  let r := runFiles behavior dryrun files rank
    {stats := stats, history := history, logCalls := [], executed := []}
  {outcome := match r.2 with | some e => .error e | none => .ok r.1.stats,
   history := r.1.history, executed := r.1.executed,
   logCalls := r.1.logCalls}

/-- The `migrate` entry point (src/index.js lines 206-429) over the
modelled state: scan and parse the directory entries, count the scanned
files, read the latest history record, refuse to proceed when it is marked
failed, filter and sort the candidates, and run them in order.  External
collaborators (credentials, secret manager, search index) perform no
observable action in the modelled fragment. -/
def migrate (filenames : List String) (history : List HistoryRecord)
    (dryrun : Bool) (behavior : String → MigrationBehavior) : MigrateResult :=
  match parseFiles [] filenames with
  | .error e =>
    {outcome := .error e, history := history, executed := [], logCalls := []}
  | .ok files =>
    let stats := {initialStats with scannedFiles := files.length}
    match getLatest history with
    | some l =>
      if l.success then
        runMigrations behavior dryrun (pendingFiles files (some l))
          l.installed_rank history stats
      else
        {outcome := .error (.failedMigration l.version l.script),
         history := history, executed := [], logCalls := []}
    | none =>
      runMigrations behavior dryrun (pendingFiles files none) (-1) history stats

/-! ### Helper lemmas about the interception layer -/

theorem flushQueue_frozen (q : List WriteOp) : ∀ (s : Stats) (log : List String),
    s.frozen = true →
    (q.foldl (fun acc op => runQueuedAction acc.1 acc.2 op) (s, log)).1 = s := by
  induction q with
  | nil => intro s log _; rfl
  | cons op rest ih =>
    intro s log h
    simp only [List.foldl_cons]
    have hstep : runQueuedAction (s, log).1 (s, log).2 op = (s, log ++ [opLogLine op]) := by
      simp [runQueuedAction, h]
    rw [hstep]
    exact ih s _ h

theorem wbCommit_frozen (d : Bool) (q : List WriteOp) (s : Stats)
    (log : List String) (h : s.frozen = true) : (wbCommit d q s log).1 = s :=
  flushQueue_frozen q s log h

theorem stepState_executed (b : String → MigrationBehavior) (d : Bool)
    (file : MigrationFile) (rank : Int) (st : RunState) :
    (stepState b d file rank st).executed = st.executed ++ [file] := rfl

/-- In a real run the step appends exactly the record of the attempted
file, with the incremented rank and the success flag of the migration. -/
theorem stepState_history (b : String → MigrationBehavior)
    (file : MigrationFile) (rank : Int) (st : RunState) :
    (stepState b false file rank st).history =
      st.history ++ [mkRecord file (rank + 1) (b file.filename).success] := by
  simp [stepState, wbCommit]

/-- In a dry run the history upload of the step is suppressed by the proxied
commit. -/
theorem stepState_history_dryrun (b : String → MigrationBehavior)
    (file : MigrationFile) (rank : Int) (st : RunState) :
    (stepState b true file rank st).history = st.history := by
  simp [stepState, wbCommit]

/-- Under a dry run the proxied commit never performs the underlying
write, so the loop never touches the persisted history collection. -/
theorem runFiles_dryrun_history (b : String → MigrationBehavior)
    (fs : List MigrationFile) : ∀ (rank : Int) (st : RunState),
    ((runFiles b true fs rank st).1).history = st.history := by
  induction fs with
  | nil => intro rank st; rfl
  | cons file rest ih =>
    intro rank st
    simp only [runFiles]
    split
    · rw [ih, stepState_history_dryrun]
    · exact stepState_history_dryrun b file rank st

/-! ### C2, C4, C5, C6, C9 -/

/-- C2: whenever the latest history record exists with `success = false`,
`migrate` aborts by throwing, executes zero migrations and writes no new
history record, whatever candidate files are present; when the scan itself
succeeds the thrown error is the restore-and-roll-back one built from the
failed record. -/
theorem fireway_C2 (filenames : List String) (history : List HistoryRecord)
    (dryrun : Bool) (behavior : String → MigrationBehavior)
    (l : HistoryRecord) (hl : getLatest history = some l)
    (hfail : l.success = false) :
    (∃ e, (migrate filenames history dryrun behavior).outcome = .error e)
    ∧ (migrate filenames history dryrun behavior).executed = []
    ∧ (migrate filenames history dryrun behavior).history = history
    ∧ (∀ files, parseFiles [] filenames = .ok files →
        (migrate filenames history dryrun behavior).outcome =
          .error (.failedMigration l.version l.script)) := by
  cases hp : parseFiles [] filenames with
  | error e =>
    refine ⟨⟨e, by simp [migrate, hp]⟩, by simp [migrate, hp],
      by simp [migrate, hp], ?_⟩
    intro files hf
    exact absurd hf (by simp)
  | ok files =>
    refine ⟨⟨FirewayError.failedMigration l.version l.script, ?_⟩, ?_, ?_,
        fun _ _ => ?_⟩ <;>
      simp [migrate, hp, hl, hfail]

/-- C4: a dry run leaves the persisted history collection untouched (the
history write of the engine itself goes through the proxied batch commit, which a
dry run turns into a no-op), the suppressed commit performs no underlying
write, and two dry runs from the same starting state produce the same
result, in particular identical run stats. -/
theorem fireway_C4 (filenames : List String) (history : List HistoryRecord)
    (behavior : String → MigrationBehavior) (q : List WriteOp) (s : Stats)
    (log : List String) :
    (migrate filenames history true behavior).history = history
    ∧ migrate filenames history true behavior
        = migrate filenames history true behavior
    ∧ (wbCommit true q s log).2.2 = false := by
  refine ⟨?_, rfl, rfl⟩
  cases hp : parseFiles [] filenames with
  | error e => simp [migrate, hp]
  | ok files =>
    cases hl : getLatest history with
    | none =>
      simp only [migrate, hp, hl, runMigrations]
      exact runFiles_dryrun_history _ _ _ _
    | some l =>
      cases hs : l.success with
      | false => simp [migrate, hp, hl, hs]
      | true =>
        simp only [migrate, hp, hl, hs, if_true, runMigrations]
        exact runFiles_dryrun_history _ _ _ _

/-- C5: on the claimed client each mutating call a migration issues
increments exactly its own counter and emits its log line (operation kind
plus the JSON rendering of the document) as long as the owning stats are
not frozen; any call made while the stats are frozen — in particular the
history-record upload of the engine itself — leaves every counter unchanged; and
the stated 1-create / 2-set / 1-update / 1-delete / 1-add migration ends
with counters {created 1, set 2, updated 1, deleted 1, added 1}. -/
theorem fireway_C5 :
    (∀ (d : Bool) (doc : String) (s : Stats) (log : List String),
      s.frozen = false →
      applyUserCall d (.direct (.create doc)) s log =
        ({s with created := s.created + 1}, log ++ ["Creating " ++ doc]))
    ∧ (∀ (d merge : Bool) (refPath doc : String) (s : Stats)
        (log : List String), s.frozen = false →
      applyUserCall d (.direct (.set merge refPath doc)) s log =
        ({s with set := s.set + 1},
         log ++ [(if merge then "Merging " else "Setting ") ++ refPath ++
           " " ++ doc]))
    ∧ (∀ (d : Bool) (refPath doc : String) (s : Stats) (log : List String),
        s.frozen = false →
      applyUserCall d (.direct (.update refPath doc)) s log =
        ({s with updated := s.updated + 1},
         log ++ ["Updating " ++ refPath ++ " " ++ doc]))
    ∧ (∀ (d : Bool) (refPath : String) (s : Stats) (log : List String),
        s.frozen = false →
      applyUserCall d (.direct (.delete refPath)) s log =
        ({s with deleted := s.deleted + 1}, log ++ ["Deleting " ++ refPath]))
    ∧ (∀ (d : Bool) (doc : String) (s : Stats) (log : List String),
        s.frozen = false →
      applyUserCall d (.add doc) s log =
        ({s with added := s.added + 1}, log ++ ["Adding " ++ doc]))
    ∧ (∀ (d : Bool) (c : UserCall) (s : Stats) (log : List String),
        s.frozen = true → (applyUserCall d c s log).1 = s)
    ∧ (∀ (d : Bool) (rank : Int) (f : MigrationFile) (success : Bool)
        (s : Stats) (log : List String), s.frozen = true →
      (wbCommit d [WriteOp.set false (recordPath rank f)
        (renderRecord (mkRecord f rank success))] s log).1 = s)
    ∧ (migrate ["1.0.0__m.js"] [] false (fun _ =>
        {calls := [.direct (.create "d1"), .direct (.set false "p1" "d2"),
                   .direct (.set true "p2" "d3"), .direct (.update "p3" "d4"),
                   .direct (.delete "p4"), .add "d5"],
         success := true})).outcome =
        .ok {scannedFiles := 1, executedFiles := 1, created := 1, set := 2,
             updated := 1, deleted := 1, added := 1, frozen := false} := by
  refine ⟨?_, ?_, ?_, ?_, ?_, ?_, ?_, ?_⟩
  · intro d doc s log h
    simp [applyUserCall, wbCommit, runQueuedAction, opStats, opLogLine, h]
  · intro d merge refPath doc s log h
    simp [applyUserCall, wbCommit, runQueuedAction, opStats, opLogLine, h]
  · intro d refPath doc s log h
    simp [applyUserCall, wbCommit, runQueuedAction, opStats, opLogLine, h]
  · intro d refPath s log h
    simp [applyUserCall, wbCommit, runQueuedAction, opStats, opLogLine, h]
  · intro d doc s log h
    simp [applyUserCall, addCall, h]
  · intro d c s log h
    cases c with
    | direct op => exact wbCommit_frozen d [op] s log h
    | batched ops => exact wbCommit_frozen d ops s log h
    | queuedOnly ops => rfl
    | add doc => simp [applyUserCall, addCall, h]
  · intro d rank f success s log h
    exact wbCommit_frozen d _ s log h
  · rfl

/-- C5 witness: the create wrapper at concrete inputs. -/
theorem fireway_C5_witness :
    initialStats.frozen = false
    ∧ applyUserCall false (.direct (.create "d")) initialStats [] =
        ({initialStats with created := initialStats.created + 1},
         [] ++ ["Creating " ++ "d"]) :=
  ⟨rfl, fireway_C5.1 false "d" initialStats [] rfl⟩

/-- C6 counterexample: an operation queued on a batch and committed under
dry-run suppression still bumps its counter — the proxy empties the
deferred-action queue before it checks the dry-run flag — so the claim
that such an operation contributes nothing to the run stats is false (a
whole dry run of a migration that batches one set call ends with
`set = 1`, not `0`). -/
theorem fireway_C6_cex :
    (wbCommit true [WriteOp.set false "p" "d"] initialStats []).1.set = 1
    ∧ (wbCommit true [WriteOp.set false "p" "d"] initialStats []).1
        ≠ initialStats
    ∧ (migrate ["1.0.0__m.js"] [] true (fun _ =>
        {calls := [.batched [.set false "p" "d"]], success := true})).outcome =
        .ok {scannedFiles := 1, executedFiles := 1, created := 0, set := 1,
             updated := 0, deleted := 0, added := 0, frozen := false} :=
  ⟨rfl, by decide, rfl⟩

/-- C6 (amended): operations queued on a write batch by a claimed run are
deferred at call time — a batch that is never committed contributes
nothing to the stats or the log — and are performed when the batch commit
flushes the queue, regardless of dry-run mode: dry-run suppresses only the
underlying network commit. -/
theorem fireway_C6 (d : Bool) (q ops : List WriteOp) (s : Stats)
    (log : List String) :
    applyUserCall d (.queuedOnly ops) s log = (s, log)
    ∧ (wbCommit true q s log).1 = (wbCommit false q s log).1
    ∧ (wbCommit true q s log).2.1 = (wbCommit false q s log).2.1
    ∧ (wbCommit d q s log).2.2 = !d :=
  ⟨rfl, rfl, rfl, rfl⟩

/-- C9 counterexample: for the filename `1.0.0__add__users.js` the parser
produces description `add` (only the token between the first and second
separator, extension-stripped), not `add__users` as the claim states. -/
theorem fireway_C9_cex :
    parseFiles [] ["1.0.0__add__users.js"] =
      .ok [⟨"1.0.0__add__users.js", ⟨1, 0, 0⟩, "add"⟩]
    ∧ ("add" : String) ≠ "add__users" :=
  ⟨rfl, by decide⟩

/-- C9 (amended): for a non-dot filename whose version token is coercible,
a missing or empty description token aborts the scan with the
malformed-filename error, and a nonempty description token yields the
coerced version together with the description token (the part between the
first and second separator) minus its extension. -/
theorem fireway_C9 (name : String) (v : Semver)
    (hdot : name.data.head? ≠ some '.')
    (hco : coerceChars ((splitSep name.data).headD []) = some v) :
    (((splitSep name.data).drop 1).headD [] = [] →
      parseFiles [] [name] = .error (.badFilename name))
    ∧ (∀ d, ((splitSep name.data).drop 1).headD [] = d → d ≠ [] →
      parseFiles [] [name] =
        .ok [⟨name, v, String.mk (stripExt d)⟩]) := by
  constructor
  · intro hd
    have hcl : classify name = .bad := by
      simp only [classify]
      rw [if_neg hdot, hco, hd]
      rfl
    simp [parseFiles, hcl]
  · intro d hd hne
    have hemp : d.isEmpty = false := by
      cases d with
      | nil => exact absurd rfl hne
      | cons c cs => rfl
    have hcl : classify name = .cand v (String.mk (stripExt d)) := by
      simp only [classify]
      rw [if_neg hdot, hco, hd]
      simp [hemp]
    simp [parseFiles, hcl, lookupVersion]

/-- C9 witness: the amended parse at a concrete multi-separator name. -/
theorem fireway_C9_witness :
    parseFiles [] ["2.0.0__add__users.js"] =
      .ok [⟨"2.0.0__add__users.js", ⟨2, 0, 0⟩, "add"⟩] := by
  have h := (fireway_C9 "2.0.0__add__users.js" ⟨2, 0, 0⟩ (by decide)
    (by rfl)).2 "add".data rfl (by decide)
  exact h

/-- Every file the scan produces carries exactly the version and
description that `classify` extracts from its own filename — i.e. the
coerced canonical version, never the raw filename token. -/
theorem parseFiles_ok_classify (filenames : List String) :
    ∀ (m : List (Semver × String)) (fs : List MigrationFile),
    parseFiles m filenames = .ok fs →
    ∀ f ∈ fs, classify f.filename = .cand f.version f.description := by
  induction filenames with
  | nil =>
    intro m fs h f hf
    simp only [parseFiles] at h
    cases h
    exact absurd hf (by simp)
  | cons name rest ih =>
    intro m fs h f hf
    cases hc : classify name with
    | skip =>
      simp only [parseFiles, hc] at h
      exact ih m fs h f hf
    | bad =>
      simp only [parseFiles, hc] at h
      exact absurd h (by simp)
    | cand v d =>
      simp only [parseFiles, hc] at h
      cases hlv : lookupVersion v m with
      | some existing =>
        simp only [hlv] at h
        exact absurd h (by simp)
      | none =>
        simp only [hlv] at h
        cases hr : parseFiles ((v, name) :: m) rest with
        | error e =>
          simp only [hr] at h
          exact absurd h (by simp)
        | ok files =>
          simp only [hr, Except.ok.injEq] at h
          subst h
          rcases List.mem_cons.mp hf with hfe | hfm
          · subst hfe
            exact hc
          · exact ih _ _ hr f hfm

/-- C10: the version the engine works with everywhere is the coerced
canonical semantic version of the filename token, not the raw token:
the tokens `1`, `1.0` and `v1.0.0` all coerce to version 1.0.0; two files
with distinct tokens coercing to the same version are rejected as
duplicates of each other; the version field of every scanned file is the
coerced version that `classify` extracts; the recorded history record
stores that coerced version; and its canonical string can differ textually
from the filename token (`2.0.0` vs `v2`). -/
theorem fireway_C10 :
    (coerceStr "1" = some ⟨1, 0, 0⟩ ∧ coerceStr "1.0" = some ⟨1, 0, 0⟩
      ∧ coerceStr "v1.0.0" = some ⟨1, 0, 0⟩)
    ∧ parseFiles [] ["1__a.js", "v1.0.0__b.js"] =
        .error (.duplicateVersion "v1.0.0__b.js" "1__a.js")
    ∧ (∀ (m : List (Semver × String)) (filenames : List String)
        (fs : List MigrationFile), parseFiles m filenames = .ok fs →
        ∀ f ∈ fs, classify f.filename = .cand f.version f.description)
    ∧ (migrate ["v2__x.js"] [] false (fun _ =>
        {calls := [], success := true})).history =
        [⟨0, ⟨2, 0, 0⟩, "x", "v2__x.js", true⟩]
    ∧ versionString ⟨2, 0, 0⟩ = "2.0.0"
    ∧ ("2.0.0" : String) ≠ "v2" :=
  ⟨⟨rfl, rfl, rfl⟩, rfl,
   fun m filenames fs h => parseFiles_ok_classify filenames m fs h,
   rfl, rfl, by decide⟩

/-- C10 witness: the general version-field conjunct applied to a concrete
successful scan. -/
theorem fireway_C10_witness :
    parseFiles [] ["v3__y.js"] = .ok [⟨"v3__y.js", ⟨3, 0, 0⟩, "y"⟩]
    ∧ classify "v3__y.js" = .cand ⟨3, 0, 0⟩ "y" :=
  ⟨rfl, fireway_C10.2.2.1 [] ["v3__y.js"] [⟨"v3__y.js", ⟨3, 0, 0⟩, "y"⟩]
    rfl ⟨"v3__y.js", ⟨3, 0, 0⟩, "y"⟩ (by simp)⟩

/-- C2 witness: a failed latest record at concrete inputs. -/
theorem fireway_C2_witness :
    (migrate ["2.0.0__b.js"] [⟨0, ⟨1, 0, 0⟩, "a", "1.0.0__a.js", false⟩]
      false (fun _ => {calls := [], success := true})).executed = []
    ∧ (migrate ["2.0.0__b.js"] [⟨0, ⟨1, 0, 0⟩, "a", "1.0.0__a.js", false⟩]
      false (fun _ => {calls := [], success := true})).history =
        [⟨0, ⟨1, 0, 0⟩, "a", "1.0.0__a.js", false⟩] :=
  have h := fireway_C2 ["2.0.0__b.js"]
    [⟨0, ⟨1, 0, 0⟩, "a", "1.0.0__a.js", false⟩] false
    (fun _ => {calls := [], success := true})
    ⟨0, ⟨1, 0, 0⟩, "a", "1.0.0__a.js", false⟩ rfl rfl
  ⟨h.2.1, h.2.2.1⟩

/-! ### The execution loop -/

/-- Once the scan has succeeded and the latest record is not a failure,
`migrate` is the execution loop over the filtered, sorted candidates. -/
theorem migrate_run (filenames : List String) (history : List HistoryRecord)
    (dryrun : Bool) (behavior : String → MigrationBehavior)
    (fs : List MigrationFile) (hparse : parseFiles [] filenames = .ok fs)
    (hlatest : ∀ l, getLatest history = some l → l.success = true) :
    migrate filenames history dryrun behavior =
      runMigrations behavior dryrun (pendingFiles fs (getLatest history))
        (startRank (getLatest history)) history
        {initialStats with scannedFiles := fs.length} := by
  cases hl : getLatest history with
  | none => simp only [migrate, hparse, hl, startRank]
  | some l =>
    have hsucc := hlatest l hl
    simp only [migrate, hparse, hl, hsucc, if_true, startRank]

/-- When every pending migration succeeds, the loop attempts exactly the
given files, in order, and reports no error. -/
theorem runFiles_all_success (b : String → MigrationBehavior) (d : Bool)
    (fs : List MigrationFile) : ∀ (rank : Int) (st : RunState),
    (∀ f ∈ fs, (b f.filename).success = true) →
    (runFiles b d fs rank st).1.executed = st.executed ++ fs
    ∧ (runFiles b d fs rank st).2 = none := by
  induction fs with
  | nil => intro rank st _; exact ⟨by simp [runFiles], rfl⟩
  | cons file rest ih =>
    intro rank st hall
    have hhead : (b file.filename).success = true := hall file (by simp)
    have htail : ∀ f ∈ rest, (b f.filename).success = true :=
      fun f hf => hall f (by simp [hf])
    simp only [runFiles]
    rw [if_pos hhead]
    obtain ⟨h1, h2⟩ := ih (rank + 1) (stepState b d file rank st) htail
    refine ⟨?_, h2⟩
    rw [h1, stepState_executed]
    simp

/-- When every migration before `f` succeeds and `f` fails, the loop
attempts exactly the prefix up to and including `f`, stops with the
first-failure error, and (in a real run) appends one success record per
file before `f` followed by the failure record of `f`. -/
theorem runFiles_split (b : String → MigrationBehavior) (d : Bool)
    (pre : List MigrationFile) :
    ∀ (f : MigrationFile) (post : List MigrationFile) (rank : Int)
    (st : RunState), (∀ g ∈ pre, (b g.filename).success = true) →
    (b f.filename).success = false →
    (runFiles b d (pre ++ f :: post) rank st).1.executed
        = st.executed ++ pre ++ [f]
    ∧ (runFiles b d (pre ++ f :: post) rank st).2
        = some .stoppedAtFirstFailure
    ∧ (d = false → ∃ recs,
        (runFiles b d (pre ++ f :: post) rank st).1.history
          = st.history ++ recs
              ++ [mkRecord f (rank + 1 + pre.length) false]
        ∧ recs.length = pre.length
        ∧ (∀ r ∈ recs, r.success = true)) := by
  induction pre with
  | nil =>
    intro f post rank st _ hf
    simp only [List.nil_append, runFiles]
    rw [if_neg (by simp [hf])]
    refine ⟨by rw [stepState_executed]; simp, rfl, ?_⟩
    rintro rfl
    refine ⟨[], ?_, rfl, by simp⟩
    rw [stepState_history, hf]
    simp
  | cons g pre' ih =>
    intro f post rank st hall hf
    have hg : (b g.filename).success = true := hall g (by simp)
    have htail : ∀ x ∈ pre', (b x.filename).success = true :=
      fun x hx => hall x (by simp [hx])
    simp only [List.cons_append, runFiles, List.append_eq]
    rw [if_pos hg]
    obtain ⟨h1, h2, h3⟩ := ih f post (rank + 1)
      (stepState b d g rank st) htail hf
    refine ⟨?_, h2, ?_⟩
    · rw [h1, stepState_executed]
      simp
    · rintro rfl
      obtain ⟨recs, hh, hlen, hsucc⟩ := h3 rfl
      refine ⟨mkRecord g (rank + 1) true :: recs, ?_, by simp [hlen], ?_⟩
      · rw [hh, stepState_history, hg]
        have hcast : rank + 1 + 1 + (pre'.length : Int)
            = rank + 1 + ((pre'.length + 1 : Nat) : Int) := by
          push_cast; ring
        rw [hcast] at hh ⊢
        simp
      · intro r hr
        rcases List.mem_cons.mp hr with hre | hrm
        · rw [hre]; rfl
        · exact hsucc r hrm

/-- C3: when every pending migration before `f` succeeds and the
execution window of `f` fails (synchronous throw or captured asynchronous error),
the run attempts nothing after `f`, throws the first-failure error, and —
the history write not being suppressed by a dry run — the final history
shows one success record per migration before `f` followed by exactly one
record for `f` with `success = false`: the failure record is durably
written before the run stops. -/
theorem fireway_C3 (filenames : List String) (history : List HistoryRecord)
    (behavior : String → MigrationBehavior)
    (fs pre post : List MigrationFile) (f : MigrationFile)
    (hparse : parseFiles [] filenames = .ok fs)
    (hlatest : ∀ l, getLatest history = some l → l.success = true)
    (hsplit : pendingFiles fs (getLatest history) = pre ++ f :: post)
    (hpre : ∀ g ∈ pre, (behavior g.filename).success = true)
    (hf : (behavior f.filename).success = false) :
    (migrate filenames history false behavior).outcome
        = .error .stoppedAtFirstFailure
    ∧ (migrate filenames history false behavior).executed = pre ++ [f]
    ∧ ∃ recs rec, (migrate filenames history false behavior).history
          = history ++ recs ++ [rec]
        ∧ recs.length = pre.length ∧ (∀ r ∈ recs, r.success = true)
        ∧ rec.script = f.filename ∧ rec.success = false := by
  rw [migrate_run filenames history false behavior fs hparse hlatest, hsplit]
  obtain ⟨h1, h2, h3⟩ := runFiles_split behavior false pre f post
    (startRank (getLatest history))
    {stats := {initialStats with scannedFiles := fs.length},
     history := history, logCalls := [], executed := []} hpre hf
  obtain ⟨recs, hh, hlen, hsucc⟩ := h3 rfl
  refine ⟨?_, ?_,
    recs, mkRecord f (startRank (getLatest history) + 1 + pre.length) false,
    ?_, hlen, hsucc, rfl, rfl⟩
  · simp only [runMigrations, h2]
  · simp only [runMigrations, h1]
    simp
  · simp only [runMigrations, hh]

/-- C3 witness: the first candidate fails at concrete inputs. -/
theorem fireway_C3_witness :
    (migrate ["1.0.0__a.js", "2.0.0__b.js"] [] false
      (fun n => {calls := [], success := n == "2.0.0__b.js"})).outcome
        = .error .stoppedAtFirstFailure
    ∧ (migrate ["1.0.0__a.js", "2.0.0__b.js"] [] false
      (fun n => {calls := [], success := n == "2.0.0__b.js"})).executed
        = [⟨"1.0.0__a.js", ⟨1, 0, 0⟩, "a"⟩] := by
  have h := fireway_C3 ["1.0.0__a.js", "2.0.0__b.js"] []
    (fun n => {calls := [], success := n == "2.0.0__b.js"})
    [⟨"1.0.0__a.js", ⟨1, 0, 0⟩, "a"⟩, ⟨"2.0.0__b.js", ⟨2, 0, 0⟩, "b"⟩]
    [] [⟨"2.0.0__b.js", ⟨2, 0, 0⟩, "b"⟩] ⟨"1.0.0__a.js", ⟨1, 0, 0⟩, "a"⟩
    rfl (fun l hl => nomatch hl) rfl (fun g hg => absurd hg (by simp)) rfl
  exact ⟨h.1, h.2.1⟩

/-! ### Installed-rank bookkeeping -/

theorem intRange_succ (a : Int) (k : Nat) :
    (List.range (k + 1)).map (fun i : Nat => a + (i : Int))
      = a :: (List.range k).map (fun i : Nat => a + 1 + (i : Int)) := by
  rw [List.range_succ_eq_map, List.map_cons, List.map_map]
  refine congrArg₂ _ (by simp) (List.map_congr_left ?_)
  intro i _
  simp only [Function.comp_apply]
  push_cast
  ring

theorem castRange_append (n k : Nat) :
    (List.range n).map (fun i : Nat => (i : Int))
      ++ (List.range k).map (fun i : Nat => (n : Int) + (i : Int))
    = (List.range (n + k)).map (fun i : Nat => (i : Int)) := by
  rw [List.range_add, List.map_append, List.map_map]
  refine congrArg₂ _ rfl (List.map_congr_left ?_)
  intro i _
  simp only [Function.comp_apply]
  push_cast
  ring

/-- In a real run the loop appends records whose installed_rank values are
consecutive, starting right above the rank it was seeded with. -/
theorem runFiles_ranks (b : String → MigrationBehavior)
    (fs : List MigrationFile) : ∀ (rank : Int) (st : RunState),
    ∃ recs : List HistoryRecord,
      (runFiles b false fs rank st).1.history = st.history ++ recs
      ∧ recs.map (fun r => r.installed_rank)
          = (List.range recs.length).map (fun i : Nat => rank + 1 + (i : Int)) := by
  induction fs with
  | nil => intro rank st; exact ⟨[], by simp [runFiles], by simp⟩
  | cons file rest ih =>
    intro rank st
    cases hs : (b file.filename).success with
    | false =>
      refine ⟨[mkRecord file (rank + 1) ((b file.filename).success)], ?_, ?_⟩
      · simp only [runFiles]
        rw [if_neg (by simp [hs])]
        exact stepState_history b file rank st
      · simp [mkRecord, List.range_succ]
    | true =>
      simp only [runFiles]
      rw [if_pos hs]
      obtain ⟨recs, hh, hr⟩ := ih (rank + 1) (stepState b false file rank st)
      refine ⟨mkRecord file (rank + 1) ((b file.filename).success) :: recs,
        ?_, ?_⟩
      · rw [hh, stepState_history]
        simp
      · simp only [List.map_cons, List.length_cons]
        rw [hr, intRange_succ]
        exact congrArg₂ _ rfl rfl

/-- The fold inside `getLatest`, seeded with a record, returns a record of
the scanned prefix (or the seed) whose installed_rank dominates the seed
and every scanned record. -/
theorem getLatest_fold_spec (l : List HistoryRecord) :
    ∀ (m x : HistoryRecord),
    l.foldl (fun acc r =>
      match acc with
      | none => some r
      | some m' => if m'.installed_rank < r.installed_rank then some r
          else some m') (some m) = some x →
    (x = m ∨ x ∈ l) ∧ m.installed_rank ≤ x.installed_rank
      ∧ ∀ r ∈ l, r.installed_rank ≤ x.installed_rank := by
  induction l with
  | nil =>
    intro m x h
    simp only [List.foldl_nil, Option.some.injEq] at h
    subst h
    exact ⟨Or.inl rfl, le_refl _, by simp⟩
  | cons r rest ih =>
    intro m x h
    by_cases hc : m.installed_rank < r.installed_rank
    · have h' : rest.foldl (fun acc r =>
          match acc with
          | none => some r
          | some m' => if m'.installed_rank < r.installed_rank then some r
              else some m') (some r) = some x := by
        simpa [hc] using h
      obtain ⟨h1, h2, h3⟩ := ih r x h'
      refine ⟨?_, by omega, ?_⟩
      · rcases h1 with rfl | hx
        · exact Or.inr (by simp)
        · exact Or.inr (by simp [hx])
      · intro r' hr'
        rcases List.mem_cons.mp hr' with rfl | hr'm
        · exact h2
        · exact h3 r' hr'm
    · have h' : rest.foldl (fun acc r =>
          match acc with
          | none => some r
          | some m' => if m'.installed_rank < r.installed_rank then some r
              else some m') (some m) = some x := by
        simpa [hc] using h
      obtain ⟨h1, h2, h3⟩ := ih m x h'
      refine ⟨?_, h2, ?_⟩
      · rcases h1 with rfl | hx
        · exact Or.inl rfl
        · exact Or.inr (by simp [hx])
      · intro r' hr'
        rcases List.mem_cons.mp hr' with rfl | hr'm
        · omega
        · exact h3 r' hr'm

/-- The latest record belongs to the history and has the greatest
installed_rank. -/
theorem getLatest_spec (history : List HistoryRecord) (l : HistoryRecord)
    (h : getLatest history = some l) :
    l ∈ history ∧ ∀ r ∈ history, r.installed_rank ≤ l.installed_rank := by
  cases history with
  | nil => exact absurd h (by simp [getLatest])
  | cons r rest =>
    have h' : rest.foldl (fun acc r =>
        match acc with
        | none => some r
        | some m' => if m'.installed_rank < r.installed_rank then some r
            else some m') (some r) = some l := by
      simpa [getLatest] using h
    obtain ⟨h1, h2, h3⟩ := getLatest_fold_spec rest r l h'
    refine ⟨?_, ?_⟩
    · rcases h1 with rfl | hx
      · simp
      · simp [hx]
    · intro r' hr'
      rcases List.mem_cons.mp hr' with rfl | hr'm
      · exact h2
      · exact h3 r' hr'm

/-- An empty `getLatest` read means an empty history collection. -/
theorem getLatest_none (history : List HistoryRecord)
    (h : getLatest history = none) : history = [] := by
  cases history with
  | nil => rfl
  | cons r rest =>
    exfalso
    cases hx : getLatest (r :: rest) with
    | some l => rw [hx] at h; exact absurd h (by simp)
    | none =>
      have : ∀ (l : List HistoryRecord) (m : HistoryRecord),
          ∃ x, l.foldl (fun acc r =>
            match acc with
            | none => some r
            | some m' => if m'.installed_rank < r.installed_rank then some r
                else some m') (some m) = some x := by
        intro l
        induction l with
        | nil => exact fun m => ⟨m, rfl⟩
        | cons a as ihl =>
          intro m
          by_cases hc : m.installed_rank < a.installed_rank
          · obtain ⟨x, hx2⟩ := ihl a
            exact ⟨x, by simpa [hc] using hx2⟩
          · obtain ⟨x, hx2⟩ := ihl m
            exact ⟨x, by simpa [hc] using hx2⟩
      obtain ⟨x, hx2⟩ := this rest r
      have : getLatest (r :: rest) = some x := by
        simpa [getLatest] using hx2
      rw [this] at hx
      exact absurd hx (by simp)

/-- A dry run never changes the persisted history collection. -/
theorem migrate_dryrun_history (filenames : List String)
    (history : List HistoryRecord) (behavior : String → MigrationBehavior) :
    (migrate filenames history true behavior).history = history := by
  cases hp : parseFiles [] filenames with
  | error e => simp [migrate, hp]
  | ok files =>
    cases hl : getLatest history with
    | none =>
      simp only [migrate, hp, hl, runMigrations]
      exact runFiles_dryrun_history _ _ _ _
    | some l =>
      cases hs : l.success with
      | false => simp [migrate, hp, hl, hs]
      | true =>
        simp only [migrate, hp, hl, hs, if_true, runMigrations]
        exact runFiles_dryrun_history _ _ _ _

/-- C7: starting from a history whose installed_rank values are exactly
0, ..., length-1 — in particular from an empty history — every run leaves
a history whose installed_rank values are again exactly 0, ..., length-1:
the first record ever appended gets rank 0 and the rank of each appended
record is the previous latest rank plus one, so the engine-written ranks
form a gap-free strictly increasing integer sequence with no
duplicates. -/
theorem fireway_C7 (filenames : List String) (history : List HistoryRecord)
    (dryrun : Bool) (behavior : String → MigrationBehavior) (n : Nat)
    (hranks : history.map (fun r => r.installed_rank)
        = (List.range n).map (fun i : Nat => (i : Int))) :
    (migrate filenames history dryrun behavior).history.map
        (fun r => r.installed_rank)
      = (List.range
          (migrate filenames history dryrun behavior).history.length).map
        (fun i : Nat => (i : Int)) := by
  have hlen : history.length = n := by
    simpa using congrArg List.length hranks
  have hbase : history.map (fun r => r.installed_rank)
      = (List.range history.length).map (fun i : Nat => (i : Int)) := by
    rw [hlen, hranks]
  cases dryrun with
  | true =>
    rw [migrate_dryrun_history]
    exact hbase
  | false =>
    cases hp : parseFiles [] filenames with
    | error e =>
      have hm : (migrate filenames history false behavior).history
          = history := by simp [migrate, hp]
      rw [hm]; exact hbase
    | ok fs =>
      cases hl : getLatest history with
      | none =>
        have hemp : history = [] := getLatest_none history hl
        subst hemp
        have hrun := migrate_run filenames [] false behavior fs hp
          (fun x hx => by rw [hl] at hx; exact absurd hx (by simp))
        rw [hl] at hrun
        obtain ⟨recs, hh, hr⟩ := runFiles_ranks behavior
          (pendingFiles fs none) (-1)
          {stats := {initialStats with scannedFiles := fs.length},
           history := [], logCalls := [], executed := []}
        have hmh : (migrate filenames [] false behavior).history = recs := by
          rw [hrun]
          simpa [runMigrations, startRank] using hh
        rw [hmh, hr]
        exact List.map_congr_left (fun i _ => by push_cast; ring)
      | some l =>
        cases hs : l.success with
        | false =>
          have hm : (migrate filenames history false behavior).history
              = history := by simp [migrate, hp, hl, hs]
          rw [hm]; exact hbase
        | true =>
          have hrun := migrate_run filenames history false behavior fs hp
            (fun x hx => by rw [hl] at hx; cases hx; exact hs)
          rw [hl] at hrun
          obtain ⟨recs, hh, hr⟩ := runFiles_ranks behavior
            (pendingFiles fs (some l)) l.installed_rank
            {stats := {initialStats with scannedFiles := fs.length},
             history := history, logCalls := [], executed := []}
          have hmh : (migrate filenames history false behavior).history
              = history ++ recs := by
            rw [hrun]
            simpa [runMigrations, startRank] using hh
          obtain ⟨hmem, hmax⟩ := getLatest_spec history l hl
          have hne : history ≠ [] := by
            intro he
            rw [he] at hmem
            exact absurd hmem (by simp)
          have hn1 : 1 ≤ n := by
            have := List.length_pos.mpr hne
            omega
          have hlt : l.installed_rank < (n : Int) ∧ 0 ≤ l.installed_rank := by
            have hmm : l.installed_rank
                ∈ history.map (fun r => r.installed_rank) :=
              List.mem_map_of_mem _ hmem
            rw [hranks] at hmm
            obtain ⟨i, hi, hieq⟩ := List.mem_map.mp hmm
            have := List.mem_range.mp hi
            omega
          have hge : ((n : Int)) - 1 ≤ l.installed_rank := by
            have hinm : ((n - 1 : Nat) : Int)
                ∈ (List.range n).map (fun i : Nat => (i : Int)) :=
              List.mem_map_of_mem _ (List.mem_range.mpr (by omega))
            rw [← hranks] at hinm
            obtain ⟨r, hrmem, hreq⟩ := List.mem_map.mp hinm
            have := hmax r hrmem
            omega
          have hrank1 : l.installed_rank + 1 = (n : Int) := by omega
          have hr' : recs.map (fun r => r.installed_rank)
              = (List.range recs.length).map
                  (fun i : Nat => (n : Int) + (i : Int)) := by
            rw [hr]
            exact List.map_congr_left (fun i _ => by rw [hrank1])
          rw [hmh, List.map_append, hranks, hr', castRange_append,
            List.length_append, hlen]

/-- C7 witness: a run over an empty history at concrete inputs. -/
theorem fireway_C7_witness :
    (migrate ["0.1.0__a.js", "0.2.0__b.js"] [] false
        (fun _ => {calls := [], success := true})).history.map
        (fun r => r.installed_rank)
      = (List.range
          (migrate ["0.1.0__a.js", "0.2.0__b.js"] [] false
            (fun _ => {calls := [], success := true})).history.length).map
        (fun i : Nat => (i : Int)) :=
  fireway_C7 ["0.1.0__a.js", "0.2.0__b.js"] [] false
    (fun _ => {calls := [], success := true}) 0 (by simp)

/-! ### Duplicate detection during the scan -/

theorem lookupVersion_mem (v : Semver) (m : List (Semver × String))
    (s : String) (h : lookupVersion v m = some s) : (v, s) ∈ m := by
  induction m with
  | nil => simp [lookupVersion] at h
  | cons p rest ih =>
    obtain ⟨v2, s2⟩ := p
    by_cases hc : v2 = v
    · subst hc
      simp only [lookupVersion, if_true, eq_self_iff_true, ite_true,
        Option.some.injEq] at h
      subst h
      simp
    · simp only [lookupVersion, if_neg hc] at h
      exact List.mem_cons_of_mem _ (ih h)

/-- A successful scan yields exactly the candidate versions of the
directory entries, they are pairwise distinct, and none of them was
already registered. -/
theorem parseFiles_ok_versions (filenames : List String) :
    ∀ (m : List (Semver × String)) (fs : List MigrationFile),
    parseFiles m filenames = .ok fs →
    fs.map (fun f => f.version) = filenames.filterMap candVersion
    ∧ (filenames.filterMap candVersion).Nodup
    ∧ ∀ v ∈ filenames.filterMap candVersion, lookupVersion v m = none := by
  induction filenames with
  | nil =>
    intro m fs h
    simp only [parseFiles, Except.ok.injEq] at h
    subst h
    exact ⟨rfl, by simp, by simp⟩
  | cons name rest ih =>
    intro m fs h
    cases hc : classify name with
    | skip =>
      simp only [parseFiles, hc] at h
      obtain ⟨h1, h2, h3⟩ := ih m fs h
      have hcv : candVersion name = none := by simp [candVersion, hc]
      rw [List.filterMap_cons]
      simp only [hcv]
      exact ⟨h1, h2, h3⟩
    | bad =>
      simp only [parseFiles, hc] at h
      exact absurd h (by simp)
    | cand v d =>
      simp only [parseFiles, hc] at h
      cases hlv : lookupVersion v m with
      | some existing =>
        simp only [hlv] at h
        exact absurd h (by simp)
      | none =>
        simp only [hlv] at h
        cases hr : parseFiles ((v, name) :: m) rest with
        | error e =>
          simp only [hr] at h
          exact absurd h (by simp)
        | ok files =>
          simp only [hr, Except.ok.injEq] at h
          subst h
          obtain ⟨h1, h2, h3⟩ := ih ((v, name) :: m) files hr
          have hcv : candVersion name = some v := by simp [candVersion, hc]
          have hnotin : v ∉ rest.filterMap candVersion := by
            intro hin
            have hcontr := h3 v hin
            simp [lookupVersion] at hcontr
          refine ⟨?_, ?_, ?_⟩
          · simp [List.filterMap_cons, hcv, h1]
          · rw [List.filterMap_cons]
            simp only [hcv]
            exact List.nodup_cons.mpr ⟨hnotin, h2⟩
          · intro v2 hv2
            rw [List.filterMap_cons] at hv2
            simp only [hcv] at hv2
            rcases List.mem_cons.mp hv2 with rfl | hv2m
            · exact hlv
            · have hl2 := h3 v2 hv2m
              simp only [lookupVersion] at hl2
              by_cases hvv : v = v2
              · rw [if_pos hvv] at hl2
                exact absurd hl2 (by simp)
              · rwa [if_neg hvv] at hl2

/-- When no directory entry is malformed, a failing scan can only have
failed on a duplicate version, and the error names a clashing pair of
candidates. -/
theorem parseFiles_error_dup (filenames : List String) :
    ∀ (m : List (Semver × String)) (e : FirewayError),
    (∀ name ∈ filenames, classify name ≠ .bad) →
    parseFiles m filenames = .error e →
    ∃ a b v, e = .duplicateVersion a b ∧ a ∈ filenames
      ∧ candVersion a = some v
      ∧ ((b ∈ filenames ∧ candVersion b = some v) ∨ (v, b) ∈ m) := by
  induction filenames with
  | nil =>
    intro m e _ h
    simp [parseFiles] at h
  | cons name rest ih =>
    intro m e hnb h
    cases hc : classify name with
    | skip =>
      simp only [parseFiles, hc] at h
      obtain ⟨a, b2, v, he, ha, hav, hb⟩ :=
        ih m e (fun x hx => hnb x (by simp [hx])) h
      refine ⟨a, b2, v, he, by simp [ha], hav, ?_⟩
      rcases hb with ⟨hbm, hbv⟩ | hbm
      · exact Or.inl ⟨by simp [hbm], hbv⟩
      · exact Or.inr hbm
    | bad => exact absurd hc (hnb name (by simp))
    | cand v d =>
      simp only [parseFiles, hc] at h
      cases hlv : lookupVersion v m with
      | some existing =>
        simp only [hlv, Except.error.injEq] at h
        refine ⟨name, existing, v, h.symm, by simp, ?_,
          Or.inr (lookupVersion_mem v m existing hlv)⟩
        simp [candVersion, hc]
      | none =>
        simp only [hlv] at h
        cases hr : parseFiles ((v, name) :: m) rest with
        | ok files =>
          simp only [hr] at h
          exact absurd h (by simp)
        | error e2 =>
          simp only [hr, Except.error.injEq] at h
          subst h
          obtain ⟨a, b2, v2, he, ha, hav, hb⟩ :=
            ih ((v, name) :: m) e2 (fun x hx => hnb x (by simp [hx])) hr
          rcases hb with ⟨hbm, hbv⟩ | hbm
          · exact ⟨a, b2, v2, he, by simp [ha], hav,
              Or.inl ⟨by simp [hbm], hbv⟩⟩
          · rcases List.mem_cons.mp hbm with heq | hbm2
            · have hveq : v2 = v := congrArg Prod.fst heq
              have hbeq : b2 = name := congrArg Prod.snd heq
              subst hveq
              subst hbeq
              exact ⟨a, b2, v2, he, by simp [ha], hav,
                Or.inl ⟨by simp, by simp [candVersion, hc]⟩⟩
            · exact ⟨a, b2, v2, he, by simp [ha], hav, Or.inr hbm2⟩

/-- C8: when two candidate filenames (well-formed, coercible, at any two
positions of the directory listing, all other entries also well-formed)
coerce to the same version, the whole scan fails: `migrate` throws a
duplicate-version error naming two clashing candidate files, executes zero
migrations and writes no history record. -/
theorem fireway_C8 (u w z : List String) (a b : String)
    (history : List HistoryRecord) (dryrun : Bool)
    (behavior : String → MigrationBehavior) (ver : Semver)
    (ha : candVersion a = some ver) (hb : candVersion b = some ver)
    (hnb : ∀ name ∈ u ++ a :: w ++ b :: z, classify name ≠ .bad) :
    (∃ x y v, (migrate (u ++ a :: w ++ b :: z) history dryrun
        behavior).outcome = .error (.duplicateVersion x y)
      ∧ x ∈ u ++ a :: w ++ b :: z ∧ y ∈ u ++ a :: w ++ b :: z
      ∧ candVersion x = some v ∧ candVersion y = some v)
    ∧ (migrate (u ++ a :: w ++ b :: z) history dryrun behavior).executed = []
    ∧ (migrate (u ++ a :: w ++ b :: z) history dryrun behavior).history
        = history := by
  have hsub : List.Sublist [ver, ver]
      ((u ++ a :: w ++ b :: z).filterMap candVersion) := by
    rw [List.filterMap_append, List.filterMap_append, List.filterMap_cons,
      ha, List.filterMap_cons, hb]
    show ([ver] ++ [ver]).Sublist _
    refine List.Sublist.append ?_ ?_
    · refine List.Sublist.trans ?_ (List.sublist_append_right _ _)
      exact List.Sublist.cons₂ _ (List.nil_sublist _)
    · exact List.Sublist.cons₂ _ (List.nil_sublist _)
  have hdup : ¬ ((u ++ a :: w ++ b :: z).filterMap candVersion).Nodup := by
    intro hnd
    have hvv := List.Nodup.sublist hsub hnd
    simp at hvv
  cases hp : parseFiles [] (u ++ a :: w ++ b :: z) with
  | ok fs =>
    exact absurd (parseFiles_ok_versions _ [] fs hp).2.1 hdup
  | error e =>
    obtain ⟨x, y, v, he, hx, hxv, hy⟩ :=
      parseFiles_error_dup (u ++ a :: w ++ b :: z) [] e hnb hp
    rcases hy with ⟨hym, hyv⟩ | hym
    · subst he
      exact ⟨⟨x, y, v, by simp only [migrate, hp], hx, hym, hxv, hyv⟩,
        by simp only [migrate, hp], by simp only [migrate, hp]⟩
    · exact absurd hym (by simp)

/-- C8 witness: two files with distinct tokens, same coerced version. -/
theorem fireway_C8_witness :
    (migrate ["2__a.js", "v2.0.0__b.js"] [] false
      (fun _ => {calls := [], success := true})).executed = []
    ∧ (migrate ["2__a.js", "v2.0.0__b.js"] [] false
      (fun _ => {calls := [], success := true})).history = [] := by
  have h := fireway_C8 [] [] [] "2__a.js" "v2.0.0__b.js" [] false
    (fun _ => {calls := [], success := true}) ⟨2, 0, 0⟩ rfl rfl (by decide)
  exact ⟨h.2.1, h.2.2⟩

/-! ### Ordering of the pending set -/

theorem semverLt_of_le_ne (a b : Semver) (hle : semverLe a b)
    (hne : a ≠ b) : semverLt a b := by
  obtain ⟨a1, a2, a3⟩ := a
  obtain ⟨b1, b2, b3⟩ := b
  simp only [semverLe, semverLt] at hle ⊢
  simp only [ne_eq, Semver.mk.injEq] at hne
  omega

/-- C1: under a clean latest record (or an empty history), with every
pending entry point succeeding, the run attempts exactly the scanned
candidates whose version is strictly greater than the latest recorded
version (all of them when no record exists), one at a time in strictly
ascending semantic-version order; and the executed sequence is unchanged
under any permutation of the scanned candidates, i.e. it does not depend
on the order in which the directory listing returned them. -/
theorem fireway_C1 (filenames filenames2 : List String)
    (history : List HistoryRecord) (dryrun : Bool)
    (behavior : String → MigrationBehavior) (fs fs2 : List MigrationFile)
    (hparse : parseFiles [] filenames = .ok fs)
    (hlatest : ∀ l, getLatest history = some l → l.success = true)
    (hok : ∀ s, (behavior s).success = true) :
    (∀ f, f ∈ (migrate filenames history dryrun behavior).executed ↔
      (f ∈ fs ∧ ∀ l, getLatest history = some l →
        semverGtB f.version l.version = true))
    ∧ List.Pairwise fileLt
        (migrate filenames history dryrun behavior).executed
    ∧ (parseFiles [] filenames2 = .ok fs2 → fs.Perm fs2 →
        (migrate filenames2 history dryrun behavior).executed
          = (migrate filenames history dryrun behavior).executed) := by
  have hexec : ∀ (fns : List String) (fsx : List MigrationFile),
      parseFiles [] fns = .ok fsx →
      (migrate fns history dryrun behavior).executed
        = pendingFiles fsx (getLatest history) := by
    intro fns fsx hp
    rw [migrate_run fns history dryrun behavior fsx hp hlatest]
    simp only [runMigrations]
    rw [(runFiles_all_success behavior dryrun
      (pendingFiles fsx (getLatest history)) (startRank (getLatest history))
      {stats := {initialStats with scannedFiles := fsx.length},
       history := history, logCalls := [], executed := []}
      (fun f _ => hok f.filename)).1]
    simp
  have hnd : (fs.map (fun f => f.version)).Nodup := by
    obtain ⟨h1, h2, _⟩ := parseFiles_ok_versions filenames [] fs hparse
    rw [h1]
    exact h2
  have hndp : ∀ (fsx : List MigrationFile),
      (fsx.map (fun f => f.version)).Nodup →
      ((pendingFiles fsx (getLatest history)).map
        (fun f => f.version)).Nodup := by
    intro fsx hx
    cases hl : getLatest history with
    | none =>
      simp only [pendingFiles, sortFiles]
      exact (((List.perm_insertionSort fileLe fsx).map _).nodup_iff).mpr hx
    | some l =>
      simp only [pendingFiles, sortFiles]
      refine (((List.perm_insertionSort fileLe _).map _).nodup_iff).mpr ?_
      exact List.Nodup.sublist ((List.filter_sublist _).map _) hx
  have hpair : ∀ (fsx : List MigrationFile),
      (fsx.map (fun f => f.version)).Nodup →
      List.Pairwise fileLt (pendingFiles fsx (getLatest history)) := by
    intro fsx hx
    have hsorted : List.Pairwise fileLe
        (pendingFiles fsx (getLatest history)) := by
      cases getLatest history <;>
        exact List.sorted_insertionSort fileLe _
    have hne := List.pairwise_map.mp (hndp fsx hx)
    have hcomb := hsorted.and hne
    exact hcomb.imp (fun {f g} hfg =>
      semverLt_of_le_ne f.version g.version hfg.1 hfg.2)
  refine ⟨?_, ?_, ?_⟩
  · intro f
    rw [hexec filenames fs hparse]
    cases hl : getLatest history with
    | none =>
      simp only [pendingFiles, sortFiles]
      rw [(List.perm_insertionSort fileLe fs).mem_iff]
      simp
    | some l =>
      simp only [pendingFiles, sortFiles]
      rw [(List.perm_insertionSort fileLe _).mem_iff, List.mem_filter]
      constructor
      · rintro ⟨h1, h2⟩
        exact ⟨h1, fun x hx => by cases hx; exact h2⟩
      · rintro ⟨h1, h2⟩
        exact ⟨h1, h2 l rfl⟩
  · rw [hexec filenames fs hparse]
    exact hpair fs hnd
  · intro hp2 hperm
    have hnd2 : (fs2.map (fun f => f.version)).Nodup :=
      ((hperm.map _).nodup_iff).mp hnd
    rw [hexec filenames fs hparse, hexec filenames2 fs2 hp2]
    have hpp : List.Perm (pendingFiles fs2 (getLatest history))
        (pendingFiles fs (getLatest history)) := by
      cases hl : getLatest history with
      | none =>
        simp only [pendingFiles, sortFiles]
        exact ((List.perm_insertionSort fileLe fs2).trans hperm.symm).trans
          (List.perm_insertionSort fileLe fs).symm
      | some l =>
        simp only [pendingFiles, sortFiles]
        exact ((List.perm_insertionSort fileLe _).trans
          (hperm.symm.filter _)).trans
          (List.perm_insertionSort fileLe _).symm
    haveI : IsAntisymm MigrationFile fileLt :=
      ⟨fun f g hfg hgf => by
        exfalso
        simp only [fileLt, semverLt] at hfg hgf
        omega⟩
    exact List.eq_of_perm_of_sorted hpp (hpair fs2 hnd2) (hpair fs hnd)

/-- C1 witness: two files listed in descending order over an empty
history. -/
theorem fireway_C1_witness :
    (∀ f, f ∈ (migrate ["1.2.0__b.js", "1.0.0__a.js"] [] false
        (fun _ => {calls := [], success := true})).executed ↔
      (f ∈ [⟨"1.2.0__b.js", ⟨1, 2, 0⟩, "b"⟩, ⟨"1.0.0__a.js", ⟨1, 0, 0⟩, "a"⟩]
        ∧ ∀ l, getLatest [] = some l → semverGtB f.version l.version = true))
    ∧ List.Pairwise fileLt (migrate ["1.2.0__b.js", "1.0.0__a.js"] [] false
        (fun _ => {calls := [], success := true})).executed := by
  have h := fireway_C1 ["1.2.0__b.js", "1.0.0__a.js"]
    ["1.0.0__a.js", "1.2.0__b.js"] [] false
    (fun _ => {calls := [], success := true})
    [⟨"1.2.0__b.js", ⟨1, 2, 0⟩, "b"⟩, ⟨"1.0.0__a.js", ⟨1, 0, 0⟩, "a"⟩]
    [⟨"1.0.0__a.js", ⟨1, 0, 0⟩, "a"⟩, ⟨"1.2.0__b.js", ⟨1, 2, 0⟩, "b"⟩]
    rfl (fun l hl => nomatch hl) (fun _ => rfl)
  exact ⟨h.1, h.2.1⟩
